import Mathlib

/-!
Verification of the wallet-adapter core (events.rs, utils.rs).

This file gives a shallow embedding of the registration handshake, the
wallet registry, the reflection layer and the Base58 codec helpers of the
crate, and proves or refutes the frozen claims about them.  Host (JS)
values are modelled by the inductive `JsVal`; fallible Rust functions
return `Except WalletError`; Rust functions that can panic return an
`Option` (with `none` for a panic) or an explicit `ExecOutcome`.
-/

/-- Modelled from the spec: the error taxonomy of the crate root (the
`WalletError` enum lives outside src, but every variant used here is
constructed verbatim by the code under src). -/
inductive WalletError where
  | ValueNotFound
  | Expected32ByteLength
  | Expected64ByteLength
  | InvalidEd25519PublicKeyBytes
  | InvalidSignature
  | InvalidBase58Address
  | UnsupportedChain (chain : String)
  | InternalError (msg : String)
deriving DecidableEq, Repr

/-- Rust `str::starts_with`: for valid UTF-8 strings a byte-wise check of
the pattern being a leading part of the string coincides with the
character-wise check. -/
def rStartsWith (s pat : String) : Bool :=
  pat.data.isPrefixOf s.data

/-- Rust `str::contains` on character lists. -/
def rContainsAux (pat : List Char) : List Char → Bool
  | [] => pat.isEmpty
  | c :: t => pat.isPrefixOf (c :: t) || rContainsAux pat t

/-- Rust `str::contains` for strings. -/
def rContains (s pat : String) : Bool :=
  rContainsAux pat.data s.data

/-- A host (JavaScript) value as seen through `wasm_bindgen::JsValue`. -/
inductive JsVal where
  | null
  | undefined
  | str (s : String)
  | num (n : Int)
  | boolean (b : Bool)
  | fn (id : Nat)
  | uint8array (bytes : List Nat)
  | arr (elems : List JsVal)
  | obj (fields : List (String × JsVal))

/-- Whether a host value is `null` or `undefined`. -/
def JsVal.isNullOrUndefined : JsVal → Bool
  | .null => true
  | .undefined => true
  | _ => false

/-- The JS `typeof` operator, as read back by `Reflection::js_typeof`. -/
def jsTypeof : JsVal → String
  | .null => "object"
  | .undefined => "undefined"
  | .str _ => "string"
  | .num _ => "number"
  | .boolean _ => "boolean"
  | .fn _ => "function"
  | .uint8array _ => "object"
  | .arr _ => "object"
  | .obj _ => "object"

/-- A shallow rendering of the `Debug` formatting of a `JsValue`; only the
shape matters to the claims, never the exact text. -/
def jsDebug : JsVal → String
  | .null => "JsValue(null)"
  | .undefined => "JsValue(undefined)"
  | .str s => "JsValue(" ++ s ++ ")"
  | .num _ => "JsValue(number)"
  | .boolean _ => "JsValue(bool)"
  | .fn _ => "JsValue(Function)"
  | .uint8array _ => "JsValue(Uint8Array)"
  | .arr _ => "JsValue(Array)"
  | .obj _ => "JsValue(Object)"

/-- Property lookup on the field list of a JS object: a missing key reads
as `undefined`. -/
def objLookup (fields : List (String × JsVal)) (key : String) : JsVal :=
  match fields.find? (fun e => e.1 == key) with
  | some e => e.2
  | none => .undefined

/-- `js_sys::Reflect::get`: succeeds on object-like targets (objects,
arrays, typed arrays, functions) and throws a `TypeError` (surfaced as a
`WalletError` through the `From` conversion) on primitives, `null` and
`undefined`. -/
def jsReflectGet (v : JsVal) (key : String) : Except WalletError JsVal :=
  match v with
  | .obj fields => .ok (objLookup fields key)
  | .arr elems =>
    .ok (match key.toNat? with
      | some i => elems.getD i .undefined
      | none => if key == "length" then .num elems.length else .undefined)
  | .uint8array bytes =>
    .ok (match key.toNat? with
      | some i => if i < bytes.length then .num (bytes.getD i 0) else .undefined
      | none => if key == "length" then .num bytes.length else .undefined)
  | .fn _ => .ok .undefined
  | .null => .error (.InternalError "TypeError: Reflect.get called on null")
  | .undefined => .error (.InternalError "TypeError: Reflect.get called on undefined")
  | _ => .error (.InternalError "TypeError: Reflect.get called on a non-object")

/-- `Utils::to32byte_array`: `<&[u8] as TryInto<[u8; 32]>>` succeeds
exactly on slices of length 32 and copies the bytes unchanged. -/
def Utils.to32byte_array (bytes : List Nat) : Except WalletError (List Nat) :=
  if bytes.length = 32 then .ok bytes else .error .Expected32ByteLength

/-- `Utils::to64byte_array`: as above for width 64. -/
def Utils.to64byte_array (bytes : List Nat) : Except WalletError (List Nat) :=
  if bytes.length = 64 then .ok bytes else .error .Expected64ByteLength

/-- `Utils::jsvalue_to_signature`: `dyn_into::<Uint8Array>` then
`to_vec().try_into::<[u8; 64]>()`; the length failure is mapped to
`InvalidEd25519PublicKeyBytes` by the source.  `Signature::from_bytes`
keeps the 64 bytes unchanged, so the result is modelled as the bytes. -/
def Utils.jsvalue_to_signature (value : JsVal) (ns : String) : Except WalletError (List Nat) :=
  match value with
  | .uint8array bytes =>
    if bytes.length = 64 then .ok bytes else .error .InvalidEd25519PublicKeyBytes
  | v =>
    .error (.InternalError
      (ns ++ ": " ++ jsDebug v ++ " cannot be cast to a Uint8Array, only a JsValue of bytes can be cast."))

/-- Byte length of a UTF-8 encoded character list, i.e. Rust `str::len`. -/
def utf8Len (s : List Char) : Nat :=
  (s.map Char.utf8Size).sum

/-- Rust byte slicing `&s[..n]`: `some` of the first characters when `n`
falls on a character boundary within range, `none` (a panic) otherwise. -/
def takeBytes : List Char → Nat → Option (List Char)
  | _, 0 => some []
  | [], _ + 1 => none
  | c :: cs, n + 1 =>
    if c.utf8Size ≤ n + 1 then
      (takeBytes cs (n + 1 - c.utf8Size)).map (fun l => c :: l)
    else none

/-- Rust byte slicing `&s[n..]`: `some` of the remaining characters when
`n` falls on a character boundary within range, `none` (a panic)
otherwise. -/
def dropBytes : List Char → Nat → Option (List Char)
  | s, 0 => some s
  | [], _ + 1 => none
  | c :: cs, n + 1 =>
    if c.utf8Size ≤ n + 1 then dropBytes cs (n + 1 - c.utf8Size)
    else none

/-- `Utils::custom_shorten_base58`: guard on the byte length, then slice
the first `take` and the last `take` bytes around an ellipsis.  The outer
`Option` records whether the body runs to completion (`none` = a slicing
panic). -/
def Utils.custom_shorten_base58 (s : List Char) (take : Nat) :
    Option (Except WalletError (List Char)) :=
  if utf8Len s < take + take then some (.error .InvalidBase58Address)
  else
    match takeBytes s take, dropBytes s (utf8Len s - take) with
    | some first_part, some last_part => some (.ok (first_part ++ "...".data ++ last_part))
    | _, _ => none

/-- `Utils::shorten_base58`: the default variant with width 4, written out
separately as in the source. -/
def Utils.shorten_base58 (s : List Char) : Option (Except WalletError (List Char)) :=
  if utf8Len s < 8 then some (.error .InvalidBase58Address)
  else
    match takeBytes s 4, dropBytes s (utf8Len s - 4) with
    | some first_part, some last_part => some (.ok (first_part ++ "...".data ++ last_part))
    | _, _ => none

/-- Modelled from the spec: the announced wallet record (the `Wallet`
struct lives in the crate root, outside src); only the fields named by the
spec data model and relevant to the registry claims are kept. -/
structure Wallet where
  name : String
  version : String
  icon : String
  chains : List String
  features : List String
deriving DecidableEq, Repr

/-- The registry storage: a finite map from the 32-byte fingerprint
(abstracted to the codomain of the supplied hash function) to the stored
wallet, modelled as an association list with unique keys. -/
def Registry : Type := List (Nat × Wallet)

/-- `HashMap::insert`: overwrite any existing entry under the key. -/
def Registry.insertW (reg : Registry) (k : Nat) (w : Wallet) : Registry :=
  (k, w) :: reg.filter (fun e => e.1 != k)

/-- `HashMap::get`: the value stored under a key, if any. -/
def Registry.lookup (reg : Registry) (k : Nat) : Option Wallet :=
  (reg.find? (fun e => e.1 == k)).map (fun e => e.2)

/-- The registry key used by the `register` closure:
`blake3::hash(wallet.name().to_lowercase().as_bytes())`.  The Blake3
digest itself is an external dependency and enters as the parameter
`hash`; the claims only use that it is a function of the lowercased
name. -/
def fingerprint (hash : String → Nat) (name : String) : Nat :=
  hash name.toLower

/-- One successful registration: the `Ok` arm of the `register` closure in
`InitEvents::register_object`. -/
def registerWallet (hash : String → Nat) (reg : Registry) (w : Wallet) : Registry :=
  reg.insertW (fingerprint hash w.name) w

/-- A sequence of successful registrations applied in order. -/
def registerAll (hash : String → Nat) (ws : List Wallet) (reg : Registry) : Registry :=
  ws.foldl (registerWallet hash) reg

/-- A console interaction performed by a callback. -/
inductive ConsoleAction where
  | errorLog (tag : String) (msg : String)
deriving DecidableEq, Repr

/-- The body of the `register` closure built by
`InitEvents::register_object`.  Its input is the outcome of
`Wallet::from_jsvalue(value)` together with the rendered error text
(`error.to_string()`), both produced outside src; the closure inserts on
success, stays silent when the text contains "is not supported", and logs
to the console otherwise.  The body contains no panicking operation, so it
is a total function. -/
def registerCallback (hash : String → Nat) (reg : Registry)
    (parsed : Except String Wallet) : Registry × List ConsoleAction :=
  match parsed with
  | .ok wallet => (registerWallet hash reg wallet, [])
  | .error e =>
    if rContains e "is not supported" then (reg, [])
    else (reg, [ConsoleAction.errorLog "REGISTER EVENT ERROR" e])

/-- Result of running a piece of code that may panic. -/
inductive ExecOutcome (α : Type) where
  | ok (value : α)
  | panicked (msg : String)

/-- Whether an execution ended in a panic. -/
def ExecOutcome.isPanicked : ExecOutcome α → Bool
  | .ok _ => false
  | .panicked _ => true

/-- `Reflection::new`: reject `null` and `undefined` with `ValueNotFound`,
wrap anything else. -/
def Reflection.new (value : JsVal) : Except WalletError JsVal :=
  if value.isNullOrUndefined then .error .ValueNotFound else .ok value

/-- `Reflection::check_is_undefined`. -/
def Reflection.check_is_undefined (value : JsVal) : Except WalletError Unit :=
  if value.isNullOrUndefined then .error .ValueNotFound else .ok ()

/-- `Reflection::new_from_str`: reflect `key` out of `value`, then
`Reflection::new` on the result. -/
def Reflection.new_from_str (value : JsVal) (key : String) : Except WalletError JsVal := do
  let inner ← jsReflectGet value key
  Reflection.new inner

/-- `Reflection::concat_error` (the text is copied from the source,
including its missing space). -/
def Reflection.concat_error (expected encountered : String) : WalletError :=
  .InternalError
    ("Expected a typeof JS " ++ expected ++ "but encountered a typeof Js `" ++ encountered ++ "`.")

/-- `Reflection::into_function`: succeed exactly on function values. -/
def Reflection.into_function (v : JsVal) : Except WalletError Nat :=
  match v with
  | .fn id => .ok id
  | _ => .error (Reflection.concat_error "Function" (jsTypeof v))

/-- `Reflection::into_array`: succeed exactly on array values. -/
def Reflection.into_array (v : JsVal) : Except WalletError (List JsVal) :=
  match v with
  | .arr elems => .ok elems
  | _ => .error (Reflection.concat_error "Array" (jsTypeof v))

/-- `Reflection::reflect_inner`: `Reflect::get` then
`check_is_undefined`. -/
def Reflection.reflect_inner (v : JsVal) (key : String) : Except WalletError JsVal := do
  let inner ← jsReflectGet v key
  let _ ← Reflection.check_is_undefined inner
  return inner

/-- The per-element processing of `Reflection::vec_string_and_filter`:
`as_string` (an `InternalError` on non-strings), then the chain filter
(`UnsupportedChain` on a string that does not start with `filter`),
collected with the short-circuiting `Result` collector of Rust. -/
def collectFiltered (filt : String) : List JsVal → Except WalletError (List String)
  | [] => .ok []
  | v :: rest => do
    let s ←
      match v with
      | .str s => Except.ok s
      | other => Except.error (.InternalError (jsDebug other ++ " is not a JsString"))
    let kept ← if rStartsWith s filt then Except.ok s else Except.error (.UnsupportedChain s)
    let tail ← collectFiltered filt rest
    return kept :: tail

/-- `Reflection::vec_string_and_filter`. -/
def Reflection.vec_string_and_filter (v : JsVal) (key filt : String) :
    Except WalletError (List String) := do
  let js_value ← Reflection.reflect_inner v key
  let refl ← Reflection.new js_value
  let elems ← Reflection.into_array refl
  collectFiltered filt elems

/-- The body of the `register-wallet` event listener closure in
`InitEvents::register_wallet_event`: `Reflection::new(detail).unwrap()`,
`.into_function().expect(..)`, then `detail.call1(..)` whose host-side
outcome is the parameter `callThrown` (`some e` when the wallet function
throws), unwrapped through `Utils::jsvalue_to_error`.  Each `unwrap` and
`expect` is a panic site. -/
def register_wallet_listener (detail : JsVal) (callThrown : Option String) : ExecOutcome Unit :=
  match Reflection.new detail with
  | .error _ => .panicked "called Result unwrap on an Err value: ValueNotFound"
  | .ok r =>
    match Reflection.into_function r with
    | .error _ =>
      .panicked "Unable to get the `detail` function from the `Event` object. This is a fatal error as the register handler wont execute."
    | .ok _ =>
      match callThrown with
      | some e => .panicked ("called Result unwrap on an Err value: " ++ e)
      | none => .ok ()

/-- Modelled from the spec: the exact event-name constants of the crate
root (outside src). -/
def WINDOW_APP_READY_EVENT_TYPE : String := "wallet-standard:app-ready"

/-- Modelled from the spec: the exact event-name constants of the crate
root (outside src). -/
def WINDOW_REGISTER_WALLET_EVENT_TYPE : String := "wallet-standard:register-wallet"

/-- An observable interaction of `init` with the browser window. -/
inductive HostAction where
  | listenerAdded (eventType : String)
  | eventDispatched (eventType : String)
deriving DecidableEq, Repr

/-- The page-observable handshake state: the ordered trace of listener
attachments and event dispatches performed on the window. -/
structure HostState where
  trace : List HostAction
deriving DecidableEq, Repr

/-- How the host reacts to the three fallible window operations performed
by `init`: the error returned by `add_event_listener_with_callback`, and
the debug strings of the JS exceptions thrown by
`CustomEvent::new_with_event_init_dict` and `dispatch_event`, when those
operations fail. -/
structure HostBehavior where
  addListenerThrown : Option WalletError
  createEventThrown : Option String
  dispatchThrown : Option String
deriving DecidableEq, Repr

/-- `InitEvents::register_wallet_event`: attach the listener for the
`register-wallet` event, propagating a host failure and leaving the window
untouched in that case. -/
def InitEvents.register_wallet_event (b : HostBehavior) (st : HostState) :
    HostState × Option WalletError :=
  match b.addListenerThrown with
  | some e => (st, some e)
  | none => (⟨st.trace ++ [.listenerAdded WINDOW_REGISTER_WALLET_EVENT_TYPE]⟩, none)

/-- `InitEvents::dispatch_app_event`: build the `app-ready` custom event
(failure is fatal with an `InternalError`), then dispatch it (failure is
fatal with an `InternalError`; a DOM dispatch failure happens before any
handler runs, so the event is then not dispatched). -/
def InitEvents.dispatch_app_event (b : HostBehavior) (st : HostState) :
    HostState × Option WalletError :=
  match b.createEventThrown with
  | some e => (st, some (.InternalError ("Failed to create app ready event: " ++ e)))
  | none =>
    match b.dispatchThrown with
    | some e => (st, some (.InternalError ("Failed to dispatch app ready event: " ++ e)))
    | none => (⟨st.trace ++ [.eventDispatched WINDOW_APP_READY_EVENT_TYPE]⟩, none)

/-- `InitEvents::init`: `register_wallet_event` then `dispatch_app_event`,
each propagated with the question-mark operator. -/
def InitEvents.init (b : HostBehavior) (st : HostState) : HostState × Option WalletError :=
  match InitEvents.register_wallet_event b st with
  | (st1, some e) => (st1, some e)
  | (st1, none) =>
    match InitEvents.dispatch_app_event b st1 with
    | (st2, some e) => (st2, some e)
    | (st2, none) => (st2, none)

/-- C6: for byte slices, `to32byte_array` and `to64byte_array` reject
wrong widths with `Expected32ByteLength` and `Expected64ByteLength`; but
`jsvalue_to_signature`, extracting a 64-byte signature from a host byte
view, rejects a wrong width with `InvalidEd25519PublicKeyBytes` instead of
the `Expected64ByteLength` the claim states.  Evaluated at the failing
input: a 63-byte `Uint8Array`. -/
theorem c6_code_bug_signature_length_error :
    Utils.jsvalue_to_signature (.uint8array (List.replicate 63 0)) "solana:signMessage"
      = .error .InvalidEd25519PublicKeyBytes
  ∧ Utils.to64byte_array (List.replicate 63 0) = .error .Expected64ByteLength
  ∧ Utils.to32byte_array (List.replicate 33 0) = .error .Expected32ByteLength := by
  exact ⟨rfl, rfl, rfl⟩

/-- C8: constructing a `Reflection` fails with `ValueNotFound` exactly on
`null` and `undefined`, the two are indistinguishable in the error, any
other value is wrapped unchanged, and reflecting a required field out of
an object goes through the same check on the looked-up value. -/
theorem c8_reflection_null_undefined (v : JsVal)
    (fields : List (String × JsVal)) (key : String) :
    (Reflection.new v = .error .ValueNotFound ↔ (v = .null ∨ v = .undefined))
  ∧ Reflection.new .null = Reflection.new .undefined
  ∧ (v.isNullOrUndefined = false → Reflection.new v = .ok v)
  ∧ Reflection.new_from_str (.obj fields) key = Reflection.new (objLookup fields key)
  ∧ Reflection.reflect_inner (.obj fields) key = Reflection.new (objLookup fields key) := by
  refine ⟨?_, rfl, ?_, ?_, ?_⟩
  · cases v <;> simp [Reflection.new, JsVal.isNullOrUndefined]
  · intro h
    cases v <;> simp_all [Reflection.new, JsVal.isNullOrUndefined]
  · simp [Reflection.new_from_str, jsReflectGet, bind, Except.bind]
  · simp [Reflection.reflect_inner, jsReflectGet, bind, Except.bind,
      Reflection.check_is_undefined, Reflection.new]
    cases h : (objLookup fields key).isNullOrUndefined <;> simp [h, pure, Except.pure]

/-- C8 witness: a plain string value is wrapped unchanged, and a required
field whose value is `null` fails like a direct `null`. -/
theorem c8_witness :
    Reflection.new (.str "wallet") = .ok (.str "wallet")
  ∧ Reflection.new_from_str (.obj [("name", .null)]) "name" = Reflection.new (.null) :=
  have h := c8_reflection_null_undefined (.str "wallet") [("name", .null)] "name"
  ⟨h.2.2.1 rfl, h.2.2.2.1⟩

/-- C2 counterexample: with a host on which listener attachment succeeds
but construction of the `app-ready` event throws, `init` returns an error
while the `register-wallet` listener remains attached to the window - so a
failed `init` does not always leave the page with no listener. -/
theorem c2_counterexample_listener_survives_failed_init :
    ((InitEvents.init ⟨none, some "DOM exception", none⟩ ⟨[]⟩).2).isSome = true
  ∧ (InitEvents.init ⟨none, some "DOM exception", none⟩ ⟨[]⟩).1.trace
      = [HostAction.listenerAdded WINDOW_REGISTER_WALLET_EVENT_TYPE] := by
  exact ⟨rfl, rfl⟩

/-- C2 amended: if `init` returns an error then no `app-ready` event has
been dispatched, and when the failure is the listener attachment the page
state is entirely unchanged; but when the listener attachment succeeded
and the `app-ready` construction or dispatch failed, the already-attached
listener remains on the window. -/
theorem c2_amended_failed_init_no_dispatch (b : HostBehavior) (st : HostState)
    (herr : ((InitEvents.init b st).2).isSome = true) :
    ((InitEvents.init b st).1.trace.count
        (HostAction.eventDispatched WINDOW_APP_READY_EVENT_TYPE)
      = st.trace.count (HostAction.eventDispatched WINDOW_APP_READY_EVENT_TYPE))
  ∧ (b.addListenerThrown.isSome = true → (InitEvents.init b st).1 = st)
  ∧ (b.addListenerThrown = none →
      (InitEvents.init b st).1.trace
        = st.trace ++ [HostAction.listenerAdded WINDOW_REGISTER_WALLET_EVENT_TYPE]) := by
  obtain ⟨la, ce, de⟩ := b
  cases la <;> cases ce <;> cases de <;>
    simp_all [InitEvents.init, InitEvents.register_wallet_event,
      InitEvents.dispatch_app_event, List.count_append, List.count_cons, List.count_nil]

/-- C2 amended witness: a dispatch failure on an initially clean page
leaves zero dispatched `app-ready` events and exactly the listener. -/
theorem c2_amended_witness :
    (InitEvents.init ⟨none, none, some "boom"⟩ ⟨[]⟩).1.trace.count
        (HostAction.eventDispatched WINDOW_APP_READY_EVENT_TYPE)
      = (⟨[]⟩ : HostState).trace.count (HostAction.eventDispatched WINDOW_APP_READY_EVENT_TYPE)
  ∧ (InitEvents.init ⟨none, none, some "boom"⟩ ⟨[]⟩).1.trace
      = ([] : List HostAction) ++ [HostAction.listenerAdded WINDOW_REGISTER_WALLET_EVENT_TYPE] :=
  have h := c2_amended_failed_init_no_dispatch ⟨none, none, some "boom"⟩ ⟨[]⟩ (by rfl)
  ⟨h.1, h.2.2 rfl⟩

/-- C4: in every execution of `init` starting from a clean page, if the
`app-ready` event got dispatched then the whole trace is the listener
attachment followed by the dispatch - the listener is attached strictly
before the dispatch, so the session passes through the listening-only
state before reaching the ready state. -/
theorem c4_listener_attached_before_app_ready (b : HostBehavior)
    (h : HostAction.eventDispatched WINDOW_APP_READY_EVENT_TYPE
          ∈ (InitEvents.init b ⟨[]⟩).1.trace) :
    (InitEvents.init b ⟨[]⟩).1.trace
      = [HostAction.listenerAdded WINDOW_REGISTER_WALLET_EVENT_TYPE,
         HostAction.eventDispatched WINDOW_APP_READY_EVENT_TYPE] := by
  obtain ⟨la, ce, de⟩ := b
  cases la <;> cases ce <;> cases de <;>
    simp_all [InitEvents.init, InitEvents.register_wallet_event,
      InitEvents.dispatch_app_event, WINDOW_APP_READY_EVENT_TYPE,
      WINDOW_REGISTER_WALLET_EVENT_TYPE]

/-- C4 witness: on a host where everything succeeds, the dispatch is in
the trace and the trace is exactly listener-then-dispatch. -/
theorem c4_witness :
    (InitEvents.init ⟨none, none, none⟩ ⟨[]⟩).1.trace
      = [HostAction.listenerAdded WINDOW_REGISTER_WALLET_EVENT_TYPE,
         HostAction.eventDispatched WINDOW_APP_READY_EVENT_TYPE] :=
  c4_listener_attached_before_app_ready ⟨none, none, none⟩ (by
    rw [show (InitEvents.init ⟨none, none, none⟩ ⟨[]⟩).1.trace
        = [HostAction.listenerAdded WINDOW_REGISTER_WALLET_EVENT_TYPE,
           HostAction.eventDispatched WINDOW_APP_READY_EVENT_TYPE] from rfl]
    simp)

/-- C3 counterexample: an invocation of the `register-wallet` listener
with a detail that is not a function, or whose detail function throws,
panics instead of being isolated - refuting the claim that no failure in
the listener path can panic or abort the session. -/
theorem c3_counterexample_listener_panics :
    (register_wallet_listener (.str "not-a-function") none).isPanicked = true
  ∧ (register_wallet_listener (.fn 0) (some "wallet threw")).isPanicked = true := by
  exact ⟨rfl, rfl⟩

/-- C3 amended: inside the `register` callback a failed registration is
fully isolated - reflection errors whose text contains "is not supported"
are silently ignored, all other errors are logged to the console, in
neither case does the registry change or the failure propagate, and the
callback body has no panic site; the `register-wallet` listener however
runs without panicking exactly when the event detail is a function and
calling it does not throw. -/
theorem c3_amended_registration_isolation (hash : String → Nat) (reg : Registry)
    (parsed : Except String Wallet) (detail : JsVal) (callThrown : Option String) :
    (∀ w, parsed = .ok w → registerCallback hash reg parsed = (registerWallet hash reg w, []))
  ∧ (∀ e, parsed = .error e → (registerCallback hash reg parsed).1 = reg)
  ∧ (∀ e, parsed = .error e → rContains e "is not supported" = true →
      registerCallback hash reg parsed = (reg, []))
  ∧ (∀ e, parsed = .error e → rContains e "is not supported" = false →
      registerCallback hash reg parsed
        = (reg, [ConsoleAction.errorLog "REGISTER EVENT ERROR" e]))
  ∧ ((register_wallet_listener detail callThrown).isPanicked = false ↔
      ((∃ id, detail = JsVal.fn id) ∧ callThrown = none)) := by
  refine ⟨?_, ?_, ?_, ?_, ?_⟩
  · rintro w rfl; rfl
  · rintro e rfl
    simp only [registerCallback]
    cases h : rContains e "is not supported" <;> simp [h]
  · rintro e rfl h; simp [registerCallback, h]
  · rintro e rfl h; simp [registerCallback, h]
  · cases detail <;> cases callThrown <;>
      simp [register_wallet_listener, Reflection.new, Reflection.into_function,
        ExecOutcome.isPanicked, JsVal.isNullOrUndefined]

/-- C3 amended witness: an unsupported-chain reflection error changes
nothing and logs nothing, and a listener invocation with a genuine
function detail that does not throw finishes without a panic. -/
theorem c3_amended_witness :
    registerCallback (fun s => s.length) []
        (.error "the chain eip155:1 is not supported") = ([], [])
  ∧ (register_wallet_listener (.fn 7) none).isPanicked = false :=
  have h := c3_amended_registration_isolation (fun s => s.length) []
    (.error "the chain eip155:1 is not supported") (.fn 7) none
  ⟨h.2.2.1 _ rfl (by rfl), h.2.2.2.2.mpr ⟨⟨7, rfl⟩, rfl⟩⟩

/-- Closed form of the short-circuiting collector of
`vec_string_and_filter` on an array of strings: the full list when every
string passes the chain filter, otherwise `UnsupportedChain` of the first
string that does not. -/
theorem collectFiltered_map_str (filt : String) (ss : List String) :
    collectFiltered filt (ss.map .str) =
      match ss.find? (fun s => !(rStartsWith s filt)) with
      | none => .ok ss
      | some v => .error (.UnsupportedChain v) := by
  induction ss with
  | nil => rfl
  | cons s rest ih =>
    cases h : rStartsWith s filt
    · simp [collectFiltered, h, bind, Except.bind, List.find?_cons]
    · simp only [List.map_cons, collectFiltered, h, bind, Except.bind, List.find?_cons,
        Bool.not_true, if_true, if_false]
      rw [ih]
      cases hr : rest.find? (fun x => !(rStartsWith x filt)) <;> simp [pure, Except.pure]

/-- C5: reading an array of strings through the chain filter returns the
full list exactly when every element starts with the configured filter
string; otherwise it returns `UnsupportedChain` carrying the first
non-matching element, and no partial list is ever produced. -/
theorem c5_vec_string_filter_all_or_nothing (ss : List String) (key filt : String) :
    (Reflection.vec_string_and_filter (.obj [(key, .arr (ss.map .str))]) key filt = .ok ss
      ↔ ss.all (fun s => rStartsWith s filt) = true)
  ∧ (∀ v, ss.find? (fun s => !(rStartsWith s filt)) = some v →
      Reflection.vec_string_and_filter (.obj [(key, .arr (ss.map .str))]) key filt
        = .error (.UnsupportedChain v))
  ∧ (∀ l, Reflection.vec_string_and_filter (.obj [(key, .arr (ss.map .str))]) key filt = .ok l
        → l = ss) := by
  have hred : Reflection.vec_string_and_filter (.obj [(key, .arr (ss.map .str))]) key filt
      = collectFiltered filt (ss.map .str) := by
    simp [Reflection.vec_string_and_filter, Reflection.reflect_inner, jsReflectGet, objLookup,
      Reflection.check_is_undefined, Reflection.new, Reflection.into_array, bind, Except.bind,
      JsVal.isNullOrUndefined, pure, Except.pure, List.find?_cons]
  rw [hred, collectFiltered_map_str]
  cases hfind : ss.find? (fun s => !(rStartsWith s filt)) with
  | none =>
    refine ⟨⟨fun _ => ?_, fun _ => rfl⟩, fun v hv => ?_, fun l hl => ?_⟩
    · rw [List.all_eq_true]
      intro x hx
      have := List.find?_eq_none.mp hfind x hx
      simpa using this
    · exact Option.noConfusion hv
    · injection hl with h
      exact h.symm
  | some v =>
    refine ⟨⟨fun h => Except.noConfusion h, fun hall => ?_⟩, fun v2 hv2 => ?_, fun l hl =>
      Except.noConfusion hl⟩
    · exfalso
      have hv := List.find?_some hfind
      have hmem := List.mem_of_find?_eq_some hfind
      rw [List.all_eq_true] at hall
      have := hall v hmem
      simp_all
    · injection hv2 with h
      rw [h]

/-- C5 witness: a chains array holding one Solana chain and one EVM chain,
filtered with the Solana namespace, is rejected whole with the EVM chain
reported. -/
theorem c5_witness :
    Reflection.vec_string_and_filter
        (.obj [("chains", .arr (["solana:mainnet", "eip155:1"].map JsVal.str))])
        "chains" "solana:"
      = .error (.UnsupportedChain "eip155:1") :=
  (c5_vec_string_filter_all_or_nothing ["solana:mainnet", "eip155:1"] "chains" "solana:").2.1
    "eip155:1" (by decide)

/-- On a string of single-byte characters the byte length is the character
count. -/
theorem utf8Len_ascii (s : List Char) (h : ∀ c ∈ s, c.utf8Size = 1) :
    utf8Len s = s.length := by
  induction s with
  | nil => rfl
  | cons c t ih =>
    simp only [utf8Len, List.map_cons, List.sum_cons, List.length_cons]
    rw [h c (by simp)]
    have : (t.map Char.utf8Size).sum = t.length := ih (fun x hx => h x (by simp [hx]))
    omega

/-- On a string of single-byte characters an in-range byte slice from the
start never panics and is the character take. -/
theorem takeBytes_ascii (s : List Char) (n : Nat) (h : ∀ c ∈ s, c.utf8Size = 1)
    (hn : n ≤ s.length) : takeBytes s n = some (s.take n) := by
  induction s generalizing n with
  | nil =>
    cases n with
    | zero => rfl
    | succ m => simp at hn
  | cons c t ih =>
    cases n with
    | zero => rfl
    | succ m =>
      have hc : c.utf8Size = 1 := h c (by simp)
      simp only [takeBytes, hc, List.take_succ_cons]
      rw [if_pos (by omega)]
      have : m + 1 - 1 = m := by omega
      rw [this, ih m (fun x hx => h x (by simp [hx])) (by simpa using hn)]
      rfl

/-- On a string of single-byte characters an in-range byte slice to the
end never panics and is the character drop. -/
theorem dropBytes_ascii (s : List Char) (n : Nat) (h : ∀ c ∈ s, c.utf8Size = 1)
    (hn : n ≤ s.length) : dropBytes s n = some (s.drop n) := by
  induction s generalizing n with
  | nil =>
    cases n with
    | zero => rfl
    | succ m => simp at hn
  | cons c t ih =>
    cases n with
    | zero => rfl
    | succ m =>
      have hc : c.utf8Size = 1 := h c (by simp)
      simp only [dropBytes, hc, List.drop_succ_cons]
      rw [if_pos (by omega)]
      have : m + 1 - 1 = m := by omega
      rw [this, ih m (fun x hx => h x (by simp [hx])) (by simpa using hn)]

/-- C7 counterexample: on a two-character Greek string and width 1 the
byte-length guard passes (4 bytes, at least 2) yet the slice panics
(`none`) instead of returning the first and last character around the
ellipsis, so the claim read over every string is false. -/
theorem c7_counterexample_multibyte_panic :
    Utils.custom_shorten_base58 "αβ".data 1 = none
  ∧ 1 + 1 ≤ utf8Len "αβ".data := by
  exact ⟨rfl, by decide⟩

/-- C7 amended: restricted to strings of single-byte (ASCII) characters,
`custom_shorten_base58` returns the first `n` characters, an ellipsis and
the last `n` characters when the length is at least `2n` and the
`InvalidBase58Address` error otherwise; the default variant uses width 4
and the two concrete examples of the claim hold.  On multi-byte strings
the byte slicing can panic instead. -/
theorem c7_amended_shorten_ascii (s : List Char) (n : Nat)
    (h : ∀ c ∈ s, c.utf8Size = 1) :
    (Utils.custom_shorten_base58 s n =
      if s.length < n + n then some (.error .InvalidBase58Address)
      else some (.ok (s.take n ++ "...".data ++ s.drop (s.length - n))))
  ∧ Utils.shorten_base58 s = Utils.custom_shorten_base58 s 4
  ∧ Utils.custom_shorten_base58 "abcdefgh".data 4 = some (.ok "abcd...efgh".data)
  ∧ Utils.custom_shorten_base58 "abcdefg".data 4 = some (.error .InvalidBase58Address) := by
  refine ⟨?_, rfl, rfl, rfl⟩
  rw [Utils.custom_shorten_base58, utf8Len_ascii s h]
  by_cases hlt : s.length < n + n
  · rw [if_pos hlt, if_pos hlt]
  · rw [if_neg hlt, if_neg hlt,
      takeBytes_ascii s n h (by omega), dropBytes_ascii s (s.length - n) h (by omega)]

/-- C7 amended witness: all-ASCII Base58-looking input of 12 characters
with the default width. -/
theorem c7_amended_witness :
    Utils.custom_shorten_base58 "FXdl4EdqtRGd".data 4 =
      if "FXdl4EdqtRGd".data.length < 4 + 4 then some (.error .InvalidBase58Address)
      else some (.ok ("FXdl4EdqtRGd".data.take 4 ++ "...".data
        ++ "FXdl4EdqtRGd".data.drop ("FXdl4EdqtRGd".data.length - 4))) :=
  (c7_amended_shorten_ascii "FXdl4EdqtRGd".data 4 (by decide)).1

/-- C10 counterexample: a string whose byte length passes the guard of the
default variant (9 bytes, at least 8) but whose fourth byte falls inside a
two-byte character makes the slice panic, so the functions are not total
on all UTF-8 strings. -/
theorem c10_counterexample_shorten_multibyte :
    Utils.shorten_base58 "aéééé".data = none
  ∧ 8 ≤ utf8Len "aéééé".data := by
  exact ⟨rfl, by decide⟩

/-- C10 amended: on strings of single-byte (ASCII) characters the
shortening helpers are total - when the byte length is at least `2n` they
return `Ok` without panicking, and below the guard the only failure is the
`InvalidBase58Address` error; on multi-byte strings the byte slicing can
panic. -/
theorem c10_amended_total_on_ascii (s : List Char) (n : Nat)
    (h : ∀ c ∈ s, c.utf8Size = 1) :
    (n + n ≤ utf8Len s → ∃ out, Utils.custom_shorten_base58 s n = some (.ok out))
  ∧ (8 ≤ utf8Len s → ∃ out, Utils.shorten_base58 s = some (.ok out))
  ∧ (utf8Len s < n + n →
      Utils.custom_shorten_base58 s n = some (.error .InvalidBase58Address)) := by
  have hl := utf8Len_ascii s h
  refine ⟨fun hn => ⟨s.take n ++ "...".data ++ s.drop (s.length - n), ?_⟩,
    fun hn => ⟨s.take 4 ++ "...".data ++ s.drop (s.length - 4), ?_⟩,
    fun hn => ?_⟩
  · rw [Utils.custom_shorten_base58, hl, if_neg (by omega),
      takeBytes_ascii s n h (by omega), dropBytes_ascii s (s.length - n) h (by omega)]
  · rw [Utils.shorten_base58, hl, if_neg (by omega),
      takeBytes_ascii s 4 h (by omega), dropBytes_ascii s (s.length - 4) h (by omega)]
  · rw [Utils.custom_shorten_base58, hl, if_pos (by omega)]

/-- C10 amended witness: an eight-character ASCII string is shortened
without a panic by both variants. -/
theorem c10_amended_witness :
    (∃ out, Utils.custom_shorten_base58 "abcdefgh".data 4 = some (.ok out))
  ∧ (∃ out, Utils.shorten_base58 "abcdefgh".data = some (.ok out)) :=
  have h := c10_amended_total_on_ascii "abcdefgh".data 4 (by decide)
  ⟨h.1 (by decide), h.2.1 (by decide)⟩

/-- The first hit of a search is the head of the filtered list. -/
theorem find?_eq_head?_filter (p : α → Bool) (l : List α) :
    l.find? p = (l.filter p).head? := by
  induction l with
  | nil => rfl
  | cons a t ih =>
    cases h : p a
    · rw [List.find?_cons_of_neg _ (by simp [h]), List.filter_cons_of_neg (by simp [h]), ih]
    · rw [List.find?_cons_of_pos _ h, List.filter_cons_of_pos h]
      rfl

/-- After an insert, the entries under the inserted key are exactly the
new one. -/
theorem filter_insertW_self (reg : Registry) (k : Nat) (w : Wallet) :
    (reg.insertW k w).filter (fun e => e.1 == k) = [(k, w)] := by
  simp only [Registry.insertW, List.filter_cons]
  rw [if_pos (by simp), List.filter_filter]
  have hnil : reg.filter (fun a => (a.1 == k) && (a.1 != k)) = [] := by
    rw [List.filter_eq_nil_iff]
    intro a _
    cases h : (a.1 == k) <;> simp [h, bne]
  rw [hnil]

/-- An insert under one key leaves the entries under any other key
unchanged. -/
theorem filter_insertW_other (reg : Registry) (k k2 : Nat) (w : Wallet) (h : k2 ≠ k) :
    (reg.insertW k2 w).filter (fun e => e.1 == k) = reg.filter (fun e => e.1 == k) := by
  simp only [Registry.insertW, List.filter_cons]
  rw [if_neg (by simp [h]), List.filter_filter]
  apply List.filter_congr
  intro a _
  cases ha : (a.1 == k)
  · simp
  · have hak : a.1 = k := by simpa using ha
    have : (a.1 != k2) = true := by simp [hak, bne]; exact fun hc => h hc.symm
    simp [ha, this]

/-- Closed form of a registration sequence: the entries under a key are
the single pair holding the last registered wallet with that fingerprint,
or the initial entries when no registered wallet has that fingerprint. -/
theorem filter_registerAll (hash : String → Nat) (k : Nat) (ws : List Wallet)
    (reg : Registry) :
    (registerAll hash ws reg).filter (fun e => e.1 == k) =
      match (ws.filter (fun w2 => fingerprint hash w2.name == k)).getLast? with
      | some w2 => [(k, w2)]
      | none => reg.filter (fun e => e.1 == k) := by
  induction ws generalizing reg with
  | nil => rfl
  | cons w ws ih =>
    have hstep : registerAll hash (w :: ws) reg
        = registerAll hash ws (registerWallet hash reg w) := rfl
    rw [hstep, ih]
    rcases hls : ws.filter (fun w2 => fingerprint hash w2.name == k) with _ | ⟨w1, l1⟩
    · cases hw : (fingerprint hash w.name == k)
      · rw [List.filter_cons, if_neg (by simp [hw]), hls]
        simp only [List.getLast?_nil]
        exact filter_insertW_other reg k (fingerprint hash w.name) w (by simpa using hw)
      · have hk : fingerprint hash w.name = k := by simpa using hw
        rw [List.filter_cons, if_pos (by simp [hw]), hls]
        simp only [List.getLast?_nil, List.getLast?_cons, Option.getD_none]
        rw [registerWallet, hk, filter_insertW_self]
    · rcases hgl : (w1 :: l1).getLast? with _ | x
      · exact absurd (List.getLast?_eq_none_iff.mp hgl) (by simp)
      · cases hw : (fingerprint hash w.name == k)
        · rw [List.filter_cons, if_neg (by simp [hw]), hls, hgl]
        · rw [List.filter_cons, if_pos (by simp [hw]), hls, List.getLast?_cons_cons, hgl]

/-- C1: after any sequence of successful registrations, all wallets whose
names agree after lowercasing share the fingerprint key, exactly one
registry entry exists under that key, and its value is the wallet of the
most recent registration with that fingerprint.  The Blake3 digest enters
as the abstract `hash` applied to the lowercased name. -/
theorem c1_registry_single_entry_last_write (hash : String → Nat) (ws : List Wallet)
    (w : Wallet) (hw : w ∈ ws) :
    (∀ w2 ∈ ws, w2.name.toLower = w.name.toLower →
      fingerprint hash w2.name = fingerprint hash w.name)
  ∧ ((registerAll hash ws []).filter
      (fun e => e.1 == fingerprint hash w.name)).length = 1
  ∧ (registerAll hash ws []).lookup (fingerprint hash w.name)
      = (ws.filter
          (fun w2 => fingerprint hash w2.name == fingerprint hash w.name)).getLast? := by
  have hfil := filter_registerAll hash (fingerprint hash w.name) ws []
  have hmem : w ∈ ws.filter
      (fun w2 => fingerprint hash w2.name == fingerprint hash w.name) :=
    List.mem_filter.mpr ⟨hw, by simp⟩
  obtain ⟨x, hx⟩ : ∃ x, (ws.filter
      (fun w2 => fingerprint hash w2.name == fingerprint hash w.name)).getLast? = some x := by
    rcases hgl : (ws.filter
        (fun w2 => fingerprint hash w2.name == fingerprint hash w.name)).getLast? with _ | x
    · rw [List.getLast?_eq_none_iff.mp hgl] at hmem
      exact absurd hmem (List.not_mem_nil w)
    · exact ⟨x, hgl⟩
  refine ⟨fun w2 _ hlow => by rw [fingerprint, fingerprint, hlow], ?_, ?_⟩
  · rw [hfil, hx]
    rfl
  · rw [Registry.lookup, find?_eq_head?_filter, hfil, hx]
    simp

/-- C1 witness: registering "Alpha" then "ALPHA" leaves one entry whose
value is the second registration, fingerprinted through a concrete hash
of the lowercased name. -/
theorem c1_witness :
    ((registerAll (fun s => s.length)
        [Wallet.mk "Alpha" "1.0.0" "data:," ["solana:mainnet"] [],
         Wallet.mk "ALPHA" "1.0.1" "data:," ["solana:mainnet"] []] []).filter
      (fun e => e.1 == fingerprint (fun s => s.length) "ALPHA")).length = 1
  ∧ (registerAll (fun s => s.length)
        [Wallet.mk "Alpha" "1.0.0" "data:," ["solana:mainnet"] [],
         Wallet.mk "ALPHA" "1.0.1" "data:," ["solana:mainnet"] []] []).lookup
      (fingerprint (fun s => s.length) "ALPHA")
      = ([Wallet.mk "Alpha" "1.0.0" "data:," ["solana:mainnet"] [],
          Wallet.mk "ALPHA" "1.0.1" "data:," ["solana:mainnet"] []].filter
        (fun w2 => fingerprint (fun s => s.length) w2.name
          = fingerprint (fun s => s.length) "ALPHA")).getLast? :=
  have h := c1_registry_single_entry_last_write (fun s => s.length)
    [Wallet.mk "Alpha" "1.0.0" "data:," ["solana:mainnet"] [],
     Wallet.mk "ALPHA" "1.0.1" "data:," ["solana:mainnet"] []]
    (Wallet.mk "ALPHA" "1.0.1" "data:," ["solana:mainnet"] []) (by simp)
  ⟨h.2.1, h.2.2⟩

/-- Modelled from the spec: the Bitcoin Base58 alphabet used by the `bs58`
crate default encoder behind `Utils::address` - plain Base58, no checksum,
no version byte. -/
def ALPHABET : List Char :=
  "123456789ABCDEFGHJKLMNPQRSTUVWXYZabcdefghijkmnopqrstuvwxyz".data

/-- The character of a Base58 digit. -/
def digitChar58 (d : Nat) : Char :=
  ALPHABET.getD d '?'

/-- The Base58 digit of a character, if any. -/
def charVal58 (c : Char) : Option Nat :=
  ALPHABET.findIdx? (fun a => a == c)

/-- Value of a little-endian digit list in base `b`. -/
def ofDigitsL (b : Nat) : List Nat → Nat
  | [] => 0
  | d :: ds => d + b * ofDigitsL b ds

/-- Little-endian base-`b` digits of `n`, with enough fuel. -/
def toDigitsAux (b : Nat) : Nat → Nat → List Nat
  | _, 0 => []
  | 0, _ + 1 => []
  | fuel + 1, n + 1 => (n + 1) % b :: toDigitsAux b fuel ((n + 1) / b)

/-- Little-endian base-`b` digits of `n` (empty for zero). -/
def natToDigits (b n : Nat) : List Nat :=
  toDigitsAux b n n

/-- Number of leading zero bytes. -/
def leadingZeros : List Nat → Nat
  | [] => 0
  | b :: t => if b = 0 then leadingZeros t + 1 else 0

/-- Big-endian value of a byte string. -/
def beToNat (bs : List Nat) : Nat :=
  ofDigitsL 256 bs.reverse

/-- Modelled from the spec: `bs58::encode(..).into_string()` - one
alphabet character `1` per leading zero byte followed by the big-endian
base-58 digits of the value. -/
def encode58 (bs : List Nat) : List Char :=
  List.replicate (leadingZeros bs) '1' ++ ((natToDigits 58 (beToNat bs)).map digitChar58).reverse

/-- Digit values of a Base58 string, failing on a foreign character. -/
def decodeVals : List Char → Option (List Nat)
  | [] => some []
  | c :: cs =>
    match charVal58 c with
    | none => none
    | some v => (decodeVals cs).map (fun rest => v :: rest)

/-- Number of leading `1` characters. -/
def leadingOnes : List Char → Nat
  | [] => 0
  | c :: t => if c = '1' then leadingOnes t + 1 else 0

/-- Modelled from the spec: plain Base58 decoding - one zero byte per
leading `1`, then the big-endian bytes of the base-58 value. -/
def decode58 (cs : List Char) : Option (List Nat) :=
  match decodeVals cs with
  | none => none
  | some vals =>
    some (List.replicate (leadingOnes cs) 0
      ++ (natToDigits 256 (ofDigitsL 58 vals.reverse)).reverse)

/-- `Utils::address`: Base58-encode the 32 public-key bytes
(`bs58::encode(public_key.as_ref()).into_string()`). -/
def Utils.address (public_key : List Nat) : List Char :=
  encode58 public_key

/-- Appending digit lists weighs the second part by a base power. -/
theorem ofDigitsL_append (b : Nat) (l1 l2 : List Nat) :
    ofDigitsL b (l1 ++ l2) = ofDigitsL b l1 + b ^ l1.length * ofDigitsL b l2 := by
  induction l1 with
  | nil => simp [ofDigitsL]
  | cons d ds ih =>
    rw [List.cons_append]
    simp only [ofDigitsL]
    rw [ih, List.length_cons, pow_succ]
    ring

/-- A run of zero digits has value zero. -/
theorem ofDigitsL_replicate_zero (b z : Nat) : ofDigitsL b (List.replicate z 0) = 0 := by
  induction z with
  | zero => rfl
  | succ m ih => simp [List.replicate_succ, ofDigitsL, ih]

/-- In a positive base, a zero value forces every digit to be zero. -/
theorem ofDigitsL_eq_zero (b : Nat) (hb : 0 < b) (l : List Nat)
    (h : ofDigitsL b l = 0) : ∀ d ∈ l, d = 0 := by
  induction l with
  | nil => simp
  | cons d ds ih =>
    simp only [ofDigitsL] at h
    have hd : d = 0 := by omega
    have hds : ofDigitsL b ds = 0 := by
      rcases Nat.mul_eq_zero.mp (by omega : b * ofDigitsL b ds = 0) with h1 | h1
      · omega
      · exact h1
    intro x hx
    rcases List.mem_cons.mp hx with rfl | hx
    · exact hd
    · exact ih hds x hx

/-- Every produced digit is below the base. -/
theorem toDigitsAux_lt (b : Nat) (hb : 2 ≤ b) :
    ∀ fuel n, ∀ d ∈ toDigitsAux b fuel n, d < b := by
  intro fuel
  induction fuel with
  | zero =>
    intro n d hd
    cases n <;> simp [toDigitsAux] at hd
  | succ f ih =>
    intro n d hd
    cases n with
    | zero => simp [toDigitsAux] at hd
    | succ m =>
      rcases List.mem_cons.mp hd with rfl | hd
      · exact Nat.mod_lt _ (by omega)
      · exact ih _ _ hd

/-- With enough fuel, reading the digits back gives the number. -/
theorem ofDigitsL_toDigitsAux (b : Nat) (hb : 2 ≤ b) :
    ∀ fuel n, n ≤ fuel → ofDigitsL b (toDigitsAux b fuel n) = n := by
  intro fuel
  induction fuel with
  | zero =>
    intro n hn
    have : n = 0 := by omega
    subst this
    rfl
  | succ f ih =>
    intro n hn
    cases n with
    | zero => rfl
    | succ m =>
      have hdivle : (m + 1) / b ≤ f := by
        have := Nat.div_lt_self (show 0 < m + 1 by omega) (show 1 < b by omega)
        omega
      simp only [toDigitsAux, ofDigitsL]
      rw [ih _ hdivle, Nat.mod_add_div]

/-- A positive number yields a nonempty digit list whose last digit is
nonzero. -/
theorem toDigitsAux_getLast (b : Nat) (hb : 2 ≤ b) :
    ∀ fuel n, 0 < n → n ≤ fuel →
      toDigitsAux b fuel n ≠ [] ∧ (toDigitsAux b fuel n).getLast? ≠ some 0 := by
  intro fuel
  induction fuel with
  | zero => intro n h1 h2; omega
  | succ f ih =>
    intro n h1 h2
    cases n with
    | zero => omega
    | succ m =>
      by_cases hdiv : (m + 1) / b = 0
      · have hlt : m + 1 < b := by
          by_contra hge
          have : 1 ≤ (m + 1) / b := (Nat.one_le_div_iff (by omega)).mpr (by omega)
          omega
        refine ⟨by simp [toDigitsAux], ?_⟩
        have h0 : toDigitsAux b f 0 = [] := by cases f <;> rfl
        simp only [toDigitsAux, hdiv, h0]
        simp [Nat.mod_eq_of_lt hlt]
      · have hpos : 0 < (m + 1) / b := Nat.pos_of_ne_zero hdiv
        have hle : (m + 1) / b ≤ f := by
          have := Nat.div_lt_self (show 0 < m + 1 by omega) (show 1 < b by omega)
          omega
        obtain ⟨hne, hlast⟩ := ih _ hpos hle
        refine ⟨by simp [toDigitsAux], ?_⟩
        simp only [toDigitsAux]
        obtain ⟨y, ys, hys⟩ := List.exists_cons_of_ne_nil hne
        rw [hys, List.getLast?_cons_cons, ← hys]
        exact hlast

/-- If a digit list has digits below the base and no trailing zero digit,
it is the canonical digit list of its value. -/
theorem toDigitsAux_ofDigitsL (b : Nat) (hb : 2 ≤ b) :
    ∀ l : List Nat, (∀ d ∈ l, d < b) → l.getLast? ≠ some 0 →
      ∀ fuel, ofDigitsL b l ≤ fuel → toDigitsAux b fuel (ofDigitsL b l) = l := by
  intro l
  induction l with
  | nil =>
    intro _ _ fuel _
    cases fuel <;> rfl
  | cons d ds ih =>
    intro hdig hlast fuel hfuel
    have hd : d < b := hdig d (by simp)
    have hcons_last : ds ≠ [] → (d :: ds).getLast? = ds.getLast? := by
      intro h
      obtain ⟨y, ys, rfl⟩ := List.exists_cons_of_ne_nil h
      exact List.getLast?_cons_cons
    by_cases hn : d + b * ofDigitsL b ds = 0
    · exfalso
      have hd0 : d = 0 := by omega
      have hds0 : ofDigitsL b ds = 0 := by
        rcases Nat.mul_eq_zero.mp (by omega : b * ofDigitsL b ds = 0) with h1 | h1
        · omega
        · exact h1
      rcases hds : ds with _ | ⟨e, es⟩
      · rw [hds] at hlast
        simp [hd0] at hlast
      · have hne : ds ≠ [] := by rw [hds]; simp
        rcases hgl : ds.getLast? with _ | x
        · exact hne (List.getLast?_eq_none_iff.mp hgl)
        · have hx0 : x = 0 :=
            ofDigitsL_eq_zero b (by omega) ds hds0 x (List.mem_of_getLast?_eq_some hgl)
          rw [hcons_last hne, hgl, hx0] at hlast
          exact hlast rfl
    · obtain ⟨f, rfl⟩ : ∃ f, fuel = f + 1 := by
        cases fuel with
        | zero =>
          exfalso
          simp only [ofDigitsL] at hfuel
          omega
        | succ f => exact ⟨f, rfl⟩
      obtain ⟨k, hk⟩ : ∃ k, d + b * ofDigitsL b ds = k + 1 := ⟨d + b * ofDigitsL b ds - 1, by omega⟩
      simp only [ofDigitsL]
      rw [hk]
      simp only [toDigitsAux]
      rw [← hk]
      have hmod : (d + b * ofDigitsL b ds) % b = d := by
        rw [Nat.add_mul_mod_self_left, Nat.mod_eq_of_lt hd]
      have hdivv : (d + b * ofDigitsL b ds) / b = ofDigitsL b ds := by
        rw [Nat.add_mul_div_left _ _ (by omega : 0 < b), Nat.div_eq_of_lt hd, Nat.zero_add]
      rw [hmod, hdivv]
      congr 1
      by_cases hm0 : ofDigitsL b ds = 0
      · rcases hds : ds with _ | ⟨e, es⟩
        · cases f <;> rfl
        · exfalso
          have hne : ds ≠ [] := by rw [hds]; simp
          rcases hgl : ds.getLast? with _ | x
          · exact hne (List.getLast?_eq_none_iff.mp hgl)
          · have hx0 : x = 0 :=
              ofDigitsL_eq_zero b (by omega) ds hm0 x (List.mem_of_getLast?_eq_some hgl)
            rw [hcons_last hne, hgl, hx0] at hlast
            exact hlast rfl
      · have hmle : ofDigitsL b ds ≤ f := by
          have h2m : 2 * ofDigitsL b ds ≤ b * ofDigitsL b ds :=
            Nat.mul_le_mul_right _ hb
          simp only [ofDigitsL] at hfuel
          omega
        have hne : ds ≠ [] := by
          intro hnil
          rw [hnil] at hm0
          exact hm0 rfl
        refine ih (fun x hx => hdig x (by simp [hx])) ?_ f hmle
        rw [← hcons_last hne]
        exact hlast

/-- Canonical digits of a canonical digit list value. -/
theorem natToDigits_ofDigitsL (b : Nat) (hb : 2 ≤ b) (l : List Nat)
    (hdig : ∀ d ∈ l, d < b) (hlast : l.getLast? ≠ some 0) :
    natToDigits b (ofDigitsL b l) = l :=
  toDigitsAux_ofDigitsL b hb l hdig hlast _ le_rfl

/-- Value of the canonical digits. -/
theorem ofDigitsL_natToDigits (b : Nat) (hb : 2 ≤ b) (n : Nat) :
    ofDigitsL b (natToDigits b n) = n :=
  ofDigitsL_toDigitsAux b hb n n le_rfl

/-- The character of the zero digit. -/
theorem charVal58_one : charVal58 '1' = some 0 := by decide

/-- Each Base58 digit decodes back from its character. -/
theorem charVal58_digitChar58 : ∀ d, d < 58 → charVal58 (digitChar58 d) = some d := by decide

/-- Only the zero digit is written as the character for one. -/
theorem digitChar58_ne_one : ∀ d, d < 58 → d ≠ 0 → digitChar58 d ≠ '1' := by decide

/-- Digit characters lie in the alphabet. -/
theorem digitChar58_mem : ∀ d, d < 58 → digitChar58 d ∈ ALPHABET := by decide

/-- Character decoding distributes over appending. -/
theorem decodeVals_append (l1 l2 : List Char) :
    decodeVals (l1 ++ l2) =
      match decodeVals l1, decodeVals l2 with
      | some v1, some v2 => some (v1 ++ v2)
      | _, _ => none := by
  induction l1 with
  | nil =>
    simp only [List.nil_append, decodeVals]
    cases decodeVals l2 <;> rfl
  | cons c cs ih =>
    cases hc : charVal58 c with
    | none => simp [decodeVals, hc]
    | some v =>
      rw [List.cons_append]
      simp only [decodeVals, hc, ih]
      cases decodeVals cs <;> cases decodeVals l2 <;> simp

/-- A run of ones decodes to a run of zero digits. -/
theorem decodeVals_replicate_one (z : Nat) :
    decodeVals (List.replicate z '1') = some (List.replicate z 0) := by
  induction z with
  | zero => rfl
  | succ m ih => simp [List.replicate_succ, decodeVals, charVal58_one, ih]

/-- Digit characters of in-range digits decode to the digits. -/
theorem decodeVals_map_digitChar (ds : List Nat) (h : ∀ d ∈ ds, d < 58) :
    decodeVals (ds.map digitChar58) = some ds := by
  induction ds with
  | nil => rfl
  | cons d t ih =>
    simp only [List.map_cons, decodeVals, charVal58_digitChar58 d (h d (by simp))]
    rw [ih (fun x hx => h x (by simp [hx]))]
    rfl

/-- Leading ones of a one-run followed by a string not opening with a
one. -/
theorem leadingOnes_replicate_append (z : Nat) (rest : List Char)
    (h : rest.head? ≠ some '1') :
    leadingOnes (List.replicate z '1' ++ rest) = z := by
  induction z with
  | zero =>
    rw [List.replicate_zero, List.nil_append]
    cases rest with
    | nil => rfl
    | cons c t =>
      have hc : c ≠ '1' := by simpa using h
      simp [leadingOnes, hc]
  | succ m ih => simp [List.replicate_succ, leadingOnes, ih]

/-- A byte string is its leading zero run followed by a remainder not
opening with a zero byte. -/
theorem leadingZeros_spec (bs : List Nat) :
    List.replicate (leadingZeros bs) 0 ++ bs.drop (leadingZeros bs) = bs
  ∧ (bs.drop (leadingZeros bs)).head? ≠ some 0 := by
  induction bs with
  | nil => exact ⟨rfl, by simp⟩
  | cons b t ih =>
    by_cases hb : b = 0
    · subst hb
      have hlz : leadingZeros (0 :: t) = leadingZeros t + 1 := by simp [leadingZeros]
      rw [hlz]
      refine ⟨?_, ?_⟩
      · rw [List.replicate_succ, List.drop_succ_cons, List.cons_append, ih.1]
      · rw [List.drop_succ_cons]
        exact ih.2
    · simp [leadingZeros, hb, List.head?]

/-- C9: for every 32-byte public key, `address` produces a string made
only of Base58 alphabet characters (no checksum, no version byte), and
plain Base58 decoding of that string returns exactly the original 32
bytes. -/
theorem c9_address_base58_roundtrip (pk : List Nat) (hlen : pk.length = 32)
    (hbytes : ∀ b ∈ pk, b < 256) :
    decode58 (Utils.address pk) = some pk
  ∧ ∀ c ∈ Utils.address pk, c ∈ ALPHABET := by
  obtain ⟨hdecomp, hhead⟩ := leadingZeros_spec pk
  have hdig58 : ∀ d ∈ natToDigits 58 (beToNat pk), d < 58 :=
    toDigitsAux_lt 58 (by omega) (beToNat pk) (beToNat pk)
  have hval : beToNat pk = ofDigitsL 256 (pk.drop (leadingZeros pk)).reverse := by
    conv_lhs => rw [beToNat, ← hdecomp]
    rw [List.reverse_append, List.reverse_replicate, ofDigitsL_append,
      ofDigitsL_replicate_zero, Nat.mul_zero, Nat.add_zero]
  have henc : Utils.address pk
      = List.replicate (leadingZeros pk) '1'
        ++ ((natToDigits 58 (beToNat pk)).map digitChar58).reverse := rfl
  have hdvrev : decodeVals (((natToDigits 58 (beToNat pk)).map digitChar58).reverse)
      = some (natToDigits 58 (beToNat pk)).reverse := by
    rw [← List.map_reverse]
    exact decodeVals_map_digitChar _ (fun d hd => hdig58 d (List.mem_reverse.mp hd))
  have hdv : decodeVals (Utils.address pk)
      = some (List.replicate (leadingZeros pk) 0 ++ (natToDigits 58 (beToNat pk)).reverse) := by
    rw [henc, decodeVals_append, decodeVals_replicate_one, hdvrev]
  have hvals : ofDigitsL 58
      (List.replicate (leadingZeros pk) 0 ++ (natToDigits 58 (beToNat pk)).reverse).reverse
      = beToNat pk := by
    rw [List.reverse_append, List.reverse_reverse, List.reverse_replicate, ofDigitsL_append,
      ofDigitsL_replicate_zero, Nat.mul_zero, Nat.add_zero, ofDigitsL_natToDigits 58 (by omega)]
  have hrest256 : ∀ d ∈ (pk.drop (leadingZeros pk)).reverse, d < 256 := by
    intro d hd
    exact hbytes d (List.drop_subset _ _ (List.mem_reverse.mp hd))
  have hrestlast : (pk.drop (leadingZeros pk)).reverse.getLast? ≠ some 0 := by
    rw [List.getLast?_reverse]
    exact hhead
  have hbytesback : natToDigits 256 (beToNat pk) = (pk.drop (leadingZeros pk)).reverse := by
    rw [hval]
    exact natToDigits_ofDigitsL 256 (by omega) _ hrest256 hrestlast
  have hones : leadingOnes (Utils.address pk) = leadingZeros pk := by
    rw [henc]
    apply leadingOnes_replicate_append
    rcases hcase : pk.drop (leadingZeros pk) with _ | ⟨h0, t0⟩
    · have hn0 : beToNat pk = 0 := by
        rw [hval, hcase]
        rfl
      rw [hn0]
      simp [natToDigits, toDigitsAux]
    · have hh0 : h0 ≠ 0 := by
        rw [hcase] at hhead
        simpa using hhead
      have hnpos : 0 < beToNat pk := by
        rw [hval, hcase, List.reverse_cons, ofDigitsL_append]
        have h1 : 0 < 256 ^ t0.reverse.length * ofDigitsL 256 [h0] := by
          apply Nat.mul_pos
          · exact pow_pos (by omega) _
          · simp only [ofDigitsL]
            omega
        omega
      obtain ⟨hne, hlast⟩ :=
        toDigitsAux_getLast 58 (by omega) (beToNat pk) (beToNat pk) hnpos le_rfl
      rw [List.head?_reverse, List.getLast?_map]
      rcases hgl : (natToDigits 58 (beToNat pk)).getLast? with _ | dl
      · simp
      · have hdl : dl < 58 := hdig58 dl (List.mem_of_getLast?_eq_some hgl)
        have hdl0 : dl ≠ 0 := by
          intro h0x
          rw [h0x] at hgl
          exact hlast hgl
        simp only [Option.map_some']
        intro hcontra
        exact digitChar58_ne_one dl hdl hdl0 (Option.some.inj hcontra)
  refine ⟨?_, ?_⟩
  · simp only [decode58, hdv, hones, hvals, hbytesback, List.reverse_reverse, hdecomp]
  · intro c hc
    rw [henc] at hc
    rcases List.mem_append.mp hc with hc | hc
    · have hc1 : c = '1' := (List.mem_replicate.mp hc).2
      rw [hc1]
      decide
    · rw [List.mem_reverse] at hc
      obtain ⟨d, hd, rfl⟩ := List.mem_map.mp hc
      exact digitChar58_mem d (hdig58 d hd)

/-- C9 witness: a concrete 32-byte key with a leading zero run decodes
back from its Base58 address. -/
theorem c9_witness :
    decode58 (Utils.address (List.replicate 31 0 ++ [7]))
      = some (List.replicate 31 0 ++ [7]) :=
  (c9_address_base58_roundtrip (List.replicate 31 0 ++ [7]) (by decide) (by decide)).1
